import Mathlib

/-!
Shallow embedding of `src/kernel.c` (SafaOS early-boot VGA console and
hex encoder), with theorems checking the specification's claims.

Modelling conventions:
* C `uint32_t` / `size_t` values are `Nat`; where C truncates (casts to
  `uint8_t` / `uint16_t`) we take `% 256` / `% 65536` explicitly.
* The VGA text memory starting at 0xB8000 is modelled as a total map
  `Nat → Nat` from cell index to 16-bit cell value; out-of-range indices
  exist in the map, mirroring the unchecked writes of the C code.
* A C string (`char *`) is a `List Char` of its bytes; `strlen` scans for
  the first NUL byte exactly as the C loop does.
* The uninitialised stack buffer `char str[11]` of `decToHexStr` is an
  explicit parameter `init : List Char` (length 11), so theorems quantify
  over its arbitrary initial contents.
-/

namespace SafaOS

/-! ## Hex encoder (`decToHexStr`) -/

/-- C: `char hexDigits[] = "0123456789ABCDEF";` -/
def hexDigits : List Char := "0123456789ABCDEF".toList

/-- The digit-extraction loop of `decToHexStr`:
`while (num > 0 && i >= 0) { str[i--] = hexDigits[num % 16]; num /= 16; }`.
The C counter `int i` (which ends at `-1`) is represented by the natural
number `j = i + 1`, the count of slots `0 .. j-1` still writable, so the
recursion is structural.  Returns the final buffer and the final `j`. -/
def digitLoopN : Nat → Nat → List Char → List Char × Nat
  | _num, 0, str => (str, 0)
  | num, j + 1, str =>
    if 0 < num then
      digitLoopN (num / 16) j (str.set j (hexDigits.getD (num % 16) ' '))
    else (str, j + 1)

/-- The zero-padding loop of `decToHexStr`:
`while (i >= 0) { str[i--] = '0'; }`, with the same `j = i + 1` change of
variable as `digitLoopN`. -/
def padLoopN : Nat → List Char → List Char
  | 0, str => str
  | j + 1, str => padLoopN j (str.set j '0')

/-- C: `void decToHexStr(uint32_t num, char str[11])`.
`init` is the (uninitialised) contents of the caller's 11-byte buffer.
Line by line: `str[8] = '\0';` then the `num == 0` special case writes
`'0'` at index 7 and drops `i` from 7 to 6 (`j` from 8 to 7), then the
digit loop, the padding loop, and finally `str[0] = '0'; str[1] = 'x';`. -/
def decToHexStr (num : Nat) (init : List Char) : List Char :=
  let str0 := init.set 8 (Char.ofNat 0)
  let str1 := if num = 0 then str0.set 7 '0' else str0
  let j1 : Nat := if num = 0 then 7 else 8
  let p := digitLoopN num j1 str1
  let str2 := padLoopN p.2 p.1
  (str2.set 0 '0').set 1 'x'

/-- The visible result of the encoder: the bytes of the buffer strictly
before the NUL terminator that `decToHexStr` places at index 8 (a caller
such as `write` reads the buffer as a C string).  The initial buffer
contents are irrelevant to these 8 bytes; we fix a canonical filler. -/
def encode (num : Nat) : String :=
  String.mk ((decToHexStr num (List.replicate 11 ' ')).take 8)

/-- Reference recursion for the combined effect of `digitLoopN` followed by
`padLoopN`: fill slots `j-1 .. 0` with the base-16 digits of `num`,
least-significant digit in the highest slot, zero-padding once `num` is
exhausted (a zero digit and the pad character coincide: both are `'0'`). -/
def writeHexN : Nat → Nat → List Char → List Char
  | _num, 0, str => str
  | num, j + 1, str =>
    writeHexN (num / 16) j (str.set j (hexDigits.getD (num % 16) ' '))

/-- Specification-side value: the zero-padded 6-hex-digit rendering of `v`,
most significant digit first (digit `k` of the list is nibble `5 - k`). -/
def hexDigits6 (v : Nat) : List Char :=
  (List.range 6).map (fun k => hexDigits.getD (v / 16 ^ (5 - k) % 16) ' ')

/-- Specification-side value of one hex digit character. -/
def hexCharVal (c : Char) : Nat :=
  if c.toNat ≤ '9'.toNat then c.toNat - '0'.toNat else c.toNat - 'A'.toNat + 10

/-- Specification-side numeric value of a big-endian hex digit string. -/
def hexValue (ds : List Char) : Nat :=
  ds.foldl (fun a c => a * 16 + hexCharVal c) 0

/-! ## VGA colors and entry packing -/

/-- C: `VGA_COLOR_BLACK = 0` -/
def VGA_COLOR_BLACK : Nat := 0
/-- C: `VGA_COLOR_RED = 4` -/
def VGA_COLOR_RED : Nat := 4
/-- C: `VGA_COLOR_YELLOW = 14` -/
def VGA_COLOR_YELLOW : Nat := 14
/-- C: `VGA_COLOR_WHITE = 15` -/
def VGA_COLOR_WHITE : Nat := 15

/-- C: `static const size_t VGA_WIDTH = 80;` -/
def VGA_WIDTH : Nat := 80
/-- C: `static const size_t VGA_HEIGHT = 25;` -/
def VGA_HEIGHT : Nat := 25

/-- C: `uint8_t vga_entry_color(VGA_COLOR fg, VGA_COLOR bg) { return fg | bg << 4; }`
(the `% 256` is the conversion of the `int` expression to the `uint8_t`
return type). -/
def vga_entry_color (fg bg : Nat) : Nat :=
  Nat.lor fg (bg <<< 4) % 256

/-- C: `uint16_t vga_entry(unsigned char uc, uint8_t color) { return (uint16_t) uc | (uint16_t) color << 8; }`
(`uc % 256` and `color % 256` are the `unsigned char` / `uint8_t`
parameter conversions; `% 65536` the conversion to `uint16_t`). -/
def vga_entry (uc color : Nat) : Nat :=
  Nat.lor (uc % 256) ((color % 256) <<< 8) % 65536

/-! ## Terminal state and operations -/

/-- The mutable globals of the console: `terminal_buffer` (as the map from
cell index to 16-bit cell value), `terminal_row`, `terminal_col`. -/
@[ext]
structure TermState where
  buf : Nat → Nat
  row : Nat
  col : Nat

/-- C: `size_t strlen(const char* str)` — length of the byte list up to
the first NUL byte. -/
def strlen (str : List Char) : Nat :=
  (str.takeWhile (fun c => c ≠ Char.ofNat 0)).length

/-- One iteration of the loop body of `terminalPut` for character `c`. -/
def putStep (color : Nat) (st : TermState) (c : Char) : TermState :=
  if c = Char.ofNat 10 then
    { st with row := st.row + 1, col := 0 }
  else
    { st with
      buf := Function.update st.buf (st.col + st.row * VGA_WIDTH)
        (vga_entry c.toNat color),
      col := st.col + 1 }

/-- C: `void terminalPut(char* str, uint8_t color)` — computes
`len = strlen(str)` and then runs the loop body for each of the first
`len` characters in order. -/
def terminalPut (str : List Char) (color : Nat) (s : TermState) : TermState :=
  (str.take (strlen str)).foldl (putStep color) s

/-- Reference recursion: the list of (cell index, character) writes that the
`terminalPut` loop performs on a character list, starting at a given
cursor, in order. -/
def trace : List Char → Nat → Nat → List (Nat × Char)
  | [], _, _ => []
  | c :: l, row, col =>
    if c = Char.ofNat 10 then trace l (row + 1) 0
    else (col + row * VGA_WIDTH, c) :: trace l row (col + 1)

/-- Reference recursion: the final (row, col) cursor of the `terminalPut`
loop on a character list from a given starting cursor. -/
def endRC : List Char → Nat → Nat → Nat × Nat
  | [], row, col => (row, col)
  | c :: l, row, col =>
    if c = Char.ofNat 10 then endRC l (row + 1) 0 else endRC l row (col + 1)

/-- Apply a list of (cell index, character) writes with a fixed attribute
byte to a buffer, in order. -/
def applyWrites (color : Nat) : List (Nat × Char) → (Nat → Nat) → (Nat → Nat)
  | [], b => b
  | w :: ws, b => applyWrites color ws (Function.update b w.1 (vga_entry w.2.toNat color))

/-- C: `void initTerminal()` — the double loop
`for (y = 0; y < VGA_HEIGHT; y++) for (x = 0; x < VGA_WIDTH; x++)
terminal_buffer[y * VGA_WIDTH + x] = vga_entry(' ', vga_entry_color(WHITE, BLACK));`.
(The binding of `terminal_buffer` to physical address 0xB8000 is the
choice of `buf` as the model of that memory.) -/
def initTerminal (s : TermState) : TermState :=
  (List.range VGA_HEIGHT).foldl
    (fun st y =>
      (List.range VGA_WIDTH).foldl
        (fun st2 x =>
          { st2 with
            buf := Function.update st2.buf (y * VGA_WIDTH + x)
              (vga_entry ' '.toNat (vga_entry_color VGA_COLOR_WHITE VGA_COLOR_BLACK)) })
        st)
    s

/-- C: `void write(char* str)` -/
def write (str : List Char) (s : TermState) : TermState :=
  terminalPut str (vga_entry_color VGA_COLOR_WHITE VGA_COLOR_BLACK) s

/-- C: `void kerr(char* err)` -/
def kerr (err : List Char) (s : TermState) : TermState :=
  terminalPut err (vga_entry_color VGA_COLOR_RED VGA_COLOR_BLACK) s

/-- C: `void kwarn(char* warn)` -/
def kwarn (warn : List Char) (s : TermState) : TermState :=
  terminalPut warn (vga_entry_color VGA_COLOR_YELLOW VGA_COLOR_BLACK) s

/-! ## Hex encoder lemmas -/

lemma hexDigits_getD_zero_mod : hexDigits.getD (0 % 16) ' ' = '0' := rfl

lemma getD_set_self {α : Type} (l : List α) (i : Nat) (a d : α) (h : i < l.length) :
    (l.set i a).getD i d = a := by
  rw [List.getD_eq_getElem _ _ (by simpa using h)]
  exact List.getElem_set_self _

lemma getD_set_ne {α : Type} (l : List α) {i j : Nat} (hij : i ≠ j) (a d : α) :
    (l.set i a).getD j d = l.getD j d := by
  simp [List.getD_eq_getElem?_getD, List.getElem?_set_ne hij]

lemma padLoopN_eq_writeHexN (j : Nat) : ∀ str, padLoopN j str = writeHexN 0 j str := by
  induction j with
  | zero => intro str; rfl
  | succ j ih =>
    intro str
    rw [padLoopN, writeHexN, hexDigits_getD_zero_mod, Nat.zero_div]
    exact ih _

lemma digitLoopN_padLoopN (j : Nat) : ∀ num str,
    padLoopN (digitLoopN num j str).2 (digitLoopN num j str).1 = writeHexN num j str := by
  induction j with
  | zero => intro num str; rfl
  | succ j ih =>
    intro num str
    by_cases h : 0 < num
    · rw [digitLoopN, if_pos h, writeHexN]
      exact ih _ _
    · rw [digitLoopN, if_neg h, writeHexN]
      have h0 : num = 0 := by omega
      subst h0
      rw [padLoopN, hexDigits_getD_zero_mod, Nat.zero_div]
      exact padLoopN_eq_writeHexN _ _

lemma writeHexN_length (j : Nat) : ∀ num str, (writeHexN num j str).length = str.length := by
  induction j with
  | zero => intro num str; rfl
  | succ j ih => intro num str; rw [writeHexN, ih, List.length_set]

lemma writeHexN_getD (d : Char) (j : Nat) : ∀ (num : Nat) (str : List Char), j ≤ str.length →
    ∀ k, (writeHexN num j str).getD k d =
      if k < j then hexDigits.getD (num / 16 ^ (j - 1 - k) % 16) ' ' else str.getD k d := by
  induction j with
  | zero => intro num str _ k; simp [writeHexN]
  | succ j ih =>
    intro num str h k
    rw [writeHexN]
    have hlen : j ≤ (str.set j (hexDigits.getD (num % 16) ' ')).length := by
      rw [List.length_set]; omega
    rw [ih _ _ hlen k]
    rcases lt_trichotomy k j with hk | hk | hk
    · rw [if_pos hk, if_pos (by omega)]
      rw [Nat.div_div_eq_div_mul]
      congr 3
      rw [← pow_succ']
      congr 1
      omega
    · subst hk
      rw [if_neg (lt_irrefl k), if_pos (Nat.lt_succ_self k)]
      rw [getD_set_self _ _ _ _ (by omega)]
      congr 2
      have he : k + 1 - 1 - k = 0 := by omega
      rw [he, pow_zero, Nat.div_one]
    · rw [if_neg (by omega), if_neg (by omega)]
      exact getD_set_ne _ (by omega) _ _

lemma decToHexStr_eq (num : Nat) (init : List Char) :
    decToHexStr num init =
      ((writeHexN num 8 (init.set 8 (Char.ofNat 0))).set 0 '0').set 1 'x' := by
  by_cases h : num = 0
  · subst h; rfl
  · simp only [decToHexStr, if_neg h]
    rw [digitLoopN_padLoopN]

lemma decToHexStr_length (num : Nat) (init : List Char) :
    (decToHexStr num init).length = init.length := by
  rw [decToHexStr_eq, List.length_set, List.length_set, writeHexN_length, List.length_set]

lemma decToHexStr_getD (num : Nat) (init : List Char) (h : init.length = 11) (k : Nat)
    (d : Char) :
    (decToHexStr num init).getD k d =
      if k = 0 then '0' else if k = 1 then 'x'
      else if k < 8 then hexDigits.getD (num / 16 ^ (7 - k) % 16) ' '
      else if k = 8 then Char.ofNat 0
      else init.getD k d := by
  have hw : (writeHexN num 8 (init.set 8 (Char.ofNat 0))).length = 11 := by
    rw [writeHexN_length, List.length_set, h]
  rw [decToHexStr_eq]
  by_cases hk1 : k = 1
  · subst hk1
    rw [getD_set_self _ _ _ _ (by rw [List.length_set, hw]; omega)]
    simp
  by_cases hk0 : k = 0
  · subst hk0
    rw [getD_set_ne _ (by omega) _ _, getD_set_self _ _ _ _ (by rw [hw]; omega)]
    simp
  rw [getD_set_ne _ (by omega) _ _, getD_set_ne _ (by omega) _ _]
  rw [writeHexN_getD _ _ _ _ (by rw [List.length_set, h]; omega) k]
  by_cases hk8 : k < 8
  · rw [if_pos hk8, if_neg hk0, if_neg hk1, if_pos hk8]
  · rw [if_neg hk8, if_neg hk0, if_neg hk1, if_neg hk8]
    by_cases hk8' : k = 8
    · subst hk8'
      rw [getD_set_self _ _ _ _ (by omega), if_pos rfl]
    · rw [getD_set_ne _ (by omega) _ _, if_neg hk8']

lemma encode_data (v : Nat) : (encode v).data = '0' :: 'x' :: hexDigits6 v := by
  have raw : (encode v).data = ['0', 'x',
      hexDigits.getD (v / 16 / 16 / 16 / 16 / 16 % 16) ' ',
      hexDigits.getD (v / 16 / 16 / 16 / 16 % 16) ' ',
      hexDigits.getD (v / 16 / 16 / 16 % 16) ' ',
      hexDigits.getD (v / 16 / 16 % 16) ' ',
      hexDigits.getD (v / 16 % 16) ' ',
      hexDigits.getD (v % 16) ' '] := by
    simp only [encode, decToHexStr_eq]
    rfl
  have h6 : hexDigits6 v = [hexDigits.getD (v / 16 ^ 5 % 16) ' ',
      hexDigits.getD (v / 16 ^ 4 % 16) ' ', hexDigits.getD (v / 16 ^ 3 % 16) ' ',
      hexDigits.getD (v / 16 ^ 2 % 16) ' ', hexDigits.getD (v / 16 ^ 1 % 16) ' ',
      hexDigits.getD (v / 16 ^ 0 % 16) ' '] := rfl
  rw [raw, h6]
  norm_num [Nat.div_div_eq_div_mul]

/-! ## Numeric correctness of the rendered digits -/

lemma foldl_mul_add (ds : List Nat) : ∀ a : Nat,
    ds.foldl (fun x d => x * 16 + d) a =
      a * 16 ^ ds.length + ds.foldl (fun x d => x * 16 + d) 0 := by
  induction ds with
  | nil => intro a; simp
  | cons d ds ih =>
    intro a
    simp only [List.foldl_cons, List.length_cons]
    rw [ih (a * 16 + d), ih (0 * 16 + d)]
    ring

lemma range_digits_foldl : ∀ (n v : Nat),
    ((List.range n).map (fun k => v / 16 ^ (n - 1 - k) % 16)).foldl
        (fun x d => x * 16 + d) 0 = v % 16 ^ n := by
  intro n
  induction n with
  | zero => intro v; simp [Nat.mod_one]
  | succ n ih =>
    intro v
    rw [List.range_succ_eq_map]
    simp only [List.map_cons, List.map_map, List.foldl_cons, Function.comp_def,
      Nat.succ_eq_add_one]
    have hexp : ∀ k : Nat, n + 1 - 1 - (k + 1) = n - 1 - k := fun k => by omega
    simp only [hexp]
    rw [Nat.zero_mul, Nat.zero_add, foldl_mul_add, List.length_map, List.length_range, ih v]
    have hhead : n + 1 - 1 - 0 = n := by omega
    rw [hhead, pow_succ, Nat.mod_mul]
    ring

lemma hexCharVal_getD : ∀ e, e < 16 → hexCharVal (hexDigits.getD e ' ') = e := by decide

lemma hexDigit_mem : ∀ e, e < 16 → hexDigits.getD e ' ' ∈ hexDigits := by decide

lemma hexValue_hexDigits6 (v : Nat) (hv : v < 16 ^ 6) : hexValue (hexDigits6 v) = v := by
  rw [hexValue, hexDigits6, List.foldl_map]
  have hval : ∀ (a k : Nat),
      a * 16 + hexCharVal (hexDigits.getD (v / 16 ^ (5 - k) % 16) ' ') =
        a * 16 + v / 16 ^ (5 - k) % 16 := fun a k => by
    rw [hexCharVal_getD _ (Nat.mod_lt _ (by norm_num))]
  simp only [hval]
  have hmap : ((List.range 6).map (fun k => v / 16 ^ (6 - 1 - k) % 16)).foldl
      (fun x d => x * 16 + d) 0 = v % 16 ^ 6 := range_digits_foldl 6 v
  rw [List.foldl_map] at hmap
  have h56 : ∀ k : Nat, 6 - 1 - k = 5 - k := fun k => by omega
  simp only [h56] at hmap
  rw [hmap, Nat.mod_eq_of_lt hv]

lemma div_pow_mod_eq (v k n : Nat) (h : k < n) :
    (v % 16 ^ n) / 16 ^ k % 16 = v / 16 ^ k % 16 := by
  rw [← Nat.mod_mul_right_div_self (v % 16 ^ n), ← Nat.mod_mul_right_div_self v,
    ← pow_succ, Nat.mod_mod_of_dvd _ (pow_dvd_pow 16 (by omega))]

/-! ## Claim theorems: hex encoder -/

/-- C1: for every 32-bit value `v ≥ 0x01000000`, the encoder's output keeps
only the low six nibbles of `v` after the literal characters `'0'` and
`'x'`; in particular `encode 0x12345678 = "0x345678"`. -/
theorem hexEncode_discards_top_digits (v : Nat) (h1 : 0x01000000 ≤ v) (h2 : v < 2 ^ 32) :
    (encode v).data = '0' :: 'x' :: hexDigits6 (v % 16 ^ 6) ∧
    encode 0x12345678 = "0x345678" := by
  refine ⟨?_, by decide⟩
  rw [encode_data v]
  have hdig : hexDigits6 (v % 16 ^ 6) = hexDigits6 v := by
    rw [hexDigits6, hexDigits6]
    refine List.map_congr_left (fun k hk => ?_)
    rw [List.mem_range] at hk
    rw [div_pow_mod_eq v (5 - k) 6 (by omega)]
  rw [hdig]

theorem hexEncode_discards_top_digits_witness :
    (0x01000000 ≤ 0x12345678 ∧ (0x12345678 : Nat) < 2 ^ 32) ∧
    ((encode 0x12345678).data = '0' :: 'x' :: hexDigits6 (0x12345678 % 16 ^ 6) ∧
      encode 0x12345678 = "0x345678") :=
  ⟨⟨by norm_num, by norm_num⟩,
    hexEncode_discards_top_digits 0x12345678 (by norm_num) (by norm_num)⟩

/-- C2: for every value `v < 0x01000000` the encoder returns `"0x"` followed
by the numerically correct zero-padded 6-digit hexadecimal rendering of `v`
(`hexValue` inverts the digits back to `v`); in particular
`encode 0 = "0x000000"` and `encode 0xFF = "0x0000FF"`. -/
theorem hexEncode_correct_small (v : Nat) (hv : v < 0x01000000) :
    (encode v).data = '0' :: 'x' :: hexDigits6 v ∧ hexValue (hexDigits6 v) = v ∧
    encode 0 = "0x000000" ∧ encode 0xFF = "0x0000FF" :=
  ⟨encode_data v, hexValue_hexDigits6 v (by norm_num at hv ⊢; omega), by decide, by decide⟩

theorem hexEncode_correct_small_witness :
    (0xFF : Nat) < 0x01000000 ∧
    ((encode 0xFF).data = '0' :: 'x' :: hexDigits6 0xFF ∧ hexValue (hexDigits6 0xFF) = 0xFF ∧
      encode 0 = "0x000000" ∧ encode 0xFF = "0x0000FF") :=
  ⟨by norm_num, hexEncode_correct_small 0xFF (by norm_num)⟩

/-- C3: for every input value and every initial buffer content, the encoder
places the NUL terminator at buffer position 8, and the visible result is
`"0x"` followed by exactly 6 hex-digit characters. -/
theorem hexEncode_fixed_format (num : Nat) (init : List Char) (h : init.length = 11) :
    (decToHexStr num init).length = 11 ∧
    (decToHexStr num init).getD 8 ' ' = Char.ofNat 0 ∧
    (decToHexStr num init).take 9 = '0' :: 'x' :: hexDigits6 num ++ [Char.ofNat 0] ∧
    (hexDigits6 num).length = 6 ∧
    ∀ c ∈ hexDigits6 num, c ∈ hexDigits := by
  have hlen : (decToHexStr num init).length = 11 := by rw [decToHexStr_length, h]
  refine ⟨hlen, ?_, ?_, rfl, ?_⟩
  · rw [decToHexStr_getD num init h 8 ' ']
    norm_num
  · refine List.ext_getElem ?_ ?_
    · rw [List.length_take, hlen]
      rfl
    · intro i hi1 hi2
      rw [List.length_take, hlen] at hi1
      have hi : i < 9 := by omega
      rw [List.getElem_take, ← List.getD_eq_getElem _ ' ' (by omega),
        decToHexStr_getD num init h i ' ']
      have h6 : hexDigits6 num = [hexDigits.getD (num / 16 ^ 5 % 16) ' ',
          hexDigits.getD (num / 16 ^ 4 % 16) ' ', hexDigits.getD (num / 16 ^ 3 % 16) ' ',
          hexDigits.getD (num / 16 ^ 2 % 16) ' ', hexDigits.getD (num / 16 ^ 1 % 16) ' ',
          hexDigits.getD (num / 16 ^ 0 % 16) ' '] := rfl
      interval_cases i <;> simp [h6]
  · intro c hc
    rw [hexDigits6, List.mem_map] at hc
    obtain ⟨k, _, rfl⟩ := hc
    exact hexDigit_mem _ (Nat.mod_lt _ (by norm_num))

theorem hexEncode_fixed_format_witness :
    (List.replicate 11 'Q').length = 11 ∧
    ((decToHexStr 0xAB (List.replicate 11 'Q')).length = 11 ∧
      (decToHexStr 0xAB (List.replicate 11 'Q')).getD 8 ' ' = Char.ofNat 0 ∧
      (decToHexStr 0xAB (List.replicate 11 'Q')).take 9 =
        '0' :: 'x' :: hexDigits6 0xAB ++ [Char.ofNat 0] ∧
      (hexDigits6 0xAB).length = 6 ∧
      ∀ c ∈ hexDigits6 0xAB, c ∈ hexDigits) :=
  ⟨by decide, hexEncode_fixed_format 0xAB (List.replicate 11 'Q') (by decide)⟩

/-! ## Terminal lemmas -/

lemma strlen_cons (c : Char) (l : List Char) (hc : c ≠ Char.ofNat 0) :
    strlen (c :: l) = strlen l + 1 := by
  simp [strlen, List.takeWhile_cons, hc]

lemma terminalPut_cons (c : Char) (rest : List Char) (color : Nat) (s : TermState)
    (hc : c ≠ Char.ofNat 0) :
    terminalPut (c :: rest) color s = terminalPut rest color (putStep color s c) := by
  rw [terminalPut, terminalPut, strlen_cons c rest hc, List.take_succ_cons, List.foldl_cons]

lemma putLoop_eq (color : Nat) : ∀ (l : List Char) (s : TermState),
    l.foldl (putStep color) s =
      ⟨applyWrites color (trace l s.row s.col) s.buf,
        (endRC l s.row s.col).1, (endRC l s.row s.col).2⟩ := by
  intro l
  induction l with
  | nil => intro s; rfl
  | cons c l ih =>
    intro s
    rw [List.foldl_cons, ih (putStep color s c)]
    by_cases hc : c = Char.ofNat 10
    · simp only [putStep, trace, endRC, if_pos hc]
    · simp only [putStep, trace, endRC, if_neg hc, applyWrites]

lemma terminalPut_eq (str : List Char) (color : Nat) (s : TermState) :
    terminalPut str color s =
      ⟨applyWrites color (trace (str.take (strlen str)) s.row s.col) s.buf,
        (endRC (str.take (strlen str)) s.row s.col).1,
        (endRC (str.take (strlen str)) s.row s.col).2⟩ :=
  putLoop_eq color _ s

lemma applyWrites_cases : ∀ (ws : List (Nat × Char)) (idx : Nat),
    (∀ (color : Nat) (b : Nat → Nat), applyWrites color ws b idx = b idx) ∨
    (∃ ch : Char, ∀ (color : Nat) (b : Nat → Nat),
      applyWrites color ws b idx = vga_entry ch.toNat color) := by
  intro ws
  induction ws with
  | nil => intro idx; left; intro color b; rfl
  | cons w ws ih =>
    intro idx
    rcases ih idx with h | ⟨ch, h⟩
    · by_cases hk : idx = w.1
      · right
        refine ⟨w.2, fun color b => ?_⟩
        rw [applyWrites, h, Function.update_apply, if_pos hk]
      · left
        intro color b
        rw [applyWrites, h, Function.update_apply, if_neg hk]
    · right
      refine ⟨ch, fun color b => ?_⟩
      rw [applyWrites, h]

lemma foldl_update (l : List Nat) (g : Nat → Nat) (v : Nat) : ∀ (st : TermState),
    l.foldl (fun st2 x => { st2 with buf := Function.update st2.buf (g x) v }) st
      = { st with buf := fun idx => if ∃ x ∈ l, g x = idx then v else st.buf idx } := by
  induction l with
  | nil =>
    intro st
    ext idx
    · simp
    · rfl
    · rfl
  | cons a l ih =>
    intro st
    rw [List.foldl_cons, ih]
    ext idx
    · simp only [Function.update_apply]
      by_cases h1 : ∃ x ∈ l, g x = idx
      · rw [if_pos h1]
        obtain ⟨x, hx, hgx⟩ := h1
        rw [if_pos ⟨x, List.mem_cons_of_mem a hx, hgx⟩]
      · rw [if_neg h1]
        by_cases h2 : idx = g a
        · rw [if_pos h2, if_pos ⟨a, List.mem_cons_self a l, h2.symm⟩]
        · rw [if_neg h2, if_neg ?_]
          rintro ⟨x, hx, hgx⟩
          rcases List.mem_cons.mp hx with rfl | hx'
          · exact h2 hgx.symm
          · exact h1 ⟨x, hx', hgx⟩
    · rfl
    · rfl

lemma foldl_condwrite {P : Nat → Nat → Prop} [inst : ∀ y idx, Decidable (P y idx)] (v : Nat) :
    ∀ (l : List Nat) (st : TermState),
      l.foldl (fun st2 y => { st2 with buf := fun idx => if P y idx then v else st2.buf idx }) st
        = { st with buf := fun idx => if ∃ y ∈ l, P y idx then v else st.buf idx } := by
  intro l
  induction l with
  | nil =>
    intro st
    ext idx
    · simp
    · rfl
    · rfl
  | cons a l ih =>
    intro st
    rw [List.foldl_cons, ih]
    ext idx
    · dsimp only
      by_cases h1 : ∃ y ∈ l, P y idx
      · rw [if_pos h1]
        obtain ⟨y, hy, hPy⟩ := h1
        rw [if_pos ⟨y, List.mem_cons_of_mem a hy, hPy⟩]
      · rw [if_neg h1]
        by_cases h2 : P a idx
        · rw [if_pos h2, if_pos ⟨a, List.mem_cons_self a l, h2⟩]
        · rw [if_neg h2, if_neg ?_]
          rintro ⟨y, hy, hPy⟩
          rcases List.mem_cons.mp hy with rfl | hy'
          · exact h2 hPy
          · exact h1 ⟨y, hy', hPy⟩
    · rfl
    · rfl

lemma initTerminal_eq (s : TermState) :
    initTerminal s =
      { s with buf := fun idx =>
          if idx < VGA_HEIGHT * VGA_WIDTH then
            vga_entry ' '.toNat (vga_entry_color VGA_COLOR_WHITE VGA_COLOR_BLACK)
          else s.buf idx } := by
  rw [initTerminal]
  have hinner : ∀ (st : TermState) (y : Nat),
      (List.range VGA_WIDTH).foldl
          (fun st2 x =>
            { st2 with buf := Function.update st2.buf (y * VGA_WIDTH + x) (vga_entry ' '.toNat (vga_entry_color VGA_COLOR_WHITE VGA_COLOR_BLACK)) }) st
        = { st with buf := fun idx =>
            if ∃ x ∈ List.range VGA_WIDTH, y * VGA_WIDTH + x = idx then
              vga_entry ' '.toNat (vga_entry_color VGA_COLOR_WHITE VGA_COLOR_BLACK)
            else st.buf idx } :=
    fun st y => foldl_update (List.range VGA_WIDTH) (fun x => y * VGA_WIDTH + x) _ st
  simp only [hinner]
  rw [foldl_condwrite]
  ext idx
  · dsimp only
    have hiff : (∃ y ∈ List.range VGA_HEIGHT, ∃ x ∈ List.range VGA_WIDTH,
        y * VGA_WIDTH + x = idx) ↔ idx < VGA_HEIGHT * VGA_WIDTH := by
      simp only [List.mem_range, VGA_WIDTH, VGA_HEIGHT]
      constructor
      · rintro ⟨y, hy, x, hx, rfl⟩
        omega
      · intro h
        exact ⟨idx / 80, by omega, idx % 80, by omega, by omega⟩
    by_cases h : idx < VGA_HEIGHT * VGA_WIDTH
    · rw [if_pos (hiff.mpr h), if_pos h]
    · rw [if_neg (fun hx => h (hiff.mp hx)), if_neg h]
  · rfl
  · rfl

lemma terminalPut_no_newline (color : Nat) : ∀ (str : List Char) (s : TermState),
    (∀ c ∈ str, c ≠ Char.ofNat 10 ∧ c ≠ Char.ofNat 0) →
    (terminalPut str color s).col = s.col + str.length ∧
      (terminalPut str color s).row = s.row := by
  intro str
  induction str with
  | nil => intro s _; exact ⟨rfl, rfl⟩
  | cons c l ih =>
    intro s hstr
    obtain ⟨hc10, hc0⟩ := hstr c (List.mem_cons_self c l)
    rw [terminalPut_cons c l color s hc0]
    have hrest : ∀ c ∈ l, c ≠ Char.ofNat 10 ∧ c ≠ Char.ofNat 0 :=
      fun c hc => hstr c (List.mem_cons_of_mem _ hc)
    obtain ⟨hcol, hrow⟩ := ih (putStep color s c) hrest
    rw [hcol, hrow]
    rw [putStep, if_neg hc10]
    refine ⟨?_, rfl⟩
    simp only [List.length_cons]
    omega

lemma terminalPut_newlines (color : Nat) : ∀ (n : Nat) (s : TermState),
    (terminalPut (List.replicate n (Char.ofNat 10)) color s).row = s.row + n ∧
      (terminalPut (List.replicate n (Char.ofNat 10)) color s).col =
        if n = 0 then s.col else 0 := by
  intro n
  induction n with
  | zero => intro s; exact ⟨rfl, rfl⟩
  | succ n ih =>
    intro s
    rw [List.replicate_succ,
      terminalPut_cons _ _ _ _ (by decide)]
    have hstep : putStep color s (Char.ofNat 10) = ⟨s.buf, s.row + 1, 0⟩ := rfl
    rw [hstep]
    obtain ⟨hrow, hcol⟩ := ih ⟨s.buf, s.row + 1, 0⟩
    rw [hrow, hcol]
    dsimp only
    refine ⟨by omega, ?_⟩
    by_cases hn : n = 0
    · rw [if_pos hn, if_neg (by omega)]
    · rw [if_neg hn, if_neg (by omega)]

/-! ## Claim theorems: console write path -/

/-- C4: the write loop handles a newline by advancing the row and resetting
the column without writing a cell, and any other character by writing one
cell at the current (row, col) and advancing the column; concretely,
writing "A\nB" from cursor (0,0) puts 'A' at cell 0, 'B' at cell 80, and
ends with the cursor at (1,1). -/
theorem terminalPut_step_behavior (s : TermState) (color : Nat) (c : Char)
    (rest : List Char) (hn : c ≠ Char.ofNat 10) (h0 : c ≠ Char.ofNat 0) :
    terminalPut (Char.ofNat 10 :: rest) color s =
      terminalPut rest color ⟨s.buf, s.row + 1, 0⟩ ∧
    terminalPut (c :: rest) color s =
      terminalPut rest color
        ⟨Function.update s.buf (s.col + s.row * VGA_WIDTH) (vga_entry c.toNat color),
          s.row, s.col + 1⟩ ∧
    terminalPut ['A', Char.ofNat 10, 'B'] color ⟨s.buf, 0, 0⟩ =
      ⟨Function.update (Function.update s.buf 0 (vga_entry 65 color)) 80
        (vga_entry 66 color), 1, 1⟩ := by
  refine ⟨?_, ?_, ?_⟩
  · rw [terminalPut_cons _ _ _ _ (by decide)]
    rfl
  · rw [terminalPut_cons _ _ _ _ h0]
    congr 1
    simp only [putStep, if_neg hn]
  · rfl

theorem terminalPut_step_behavior_witness :
    (('Z' : Char) ≠ Char.ofNat 10 ∧ ('Z' : Char) ≠ Char.ofNat 0) ∧
    (terminalPut (Char.ofNat 10 :: ['B']) 7 ⟨fun _ => 0, 2, 3⟩ =
        terminalPut ['B'] 7 ⟨(⟨fun _ => 0, 2, 3⟩ : TermState).buf, 2 + 1, 0⟩ ∧
      terminalPut ('Z' :: ['B']) 7 ⟨fun _ => 0, 2, 3⟩ =
        terminalPut ['B'] 7
          ⟨Function.update (fun _ => 0) (3 + 2 * VGA_WIDTH) (vga_entry 'Z'.toNat 7), 2, 3 + 1⟩ ∧
      terminalPut ['A', Char.ofNat 10, 'B'] 7 ⟨fun _ => 0, 0, 0⟩ =
        ⟨Function.update (Function.update (fun _ => 0) 0 (vga_entry 65 7)) 80
          (vga_entry 66 7), 1, 1⟩) :=
  ⟨⟨by decide, by decide⟩,
    terminalPut_step_behavior ⟨fun _ => 0, 2, 3⟩ 7 'Z' ['B'] (by decide) (by decide)⟩

/-- C5: after `initTerminal`, every one of the 80 × 25 = 2000 cells holds
the 16-bit unit whose low byte is the space character and whose high byte
is `vga_entry_color VGA_COLOR_WHITE VGA_COLOR_BLACK = 0x0F`. -/
theorem initTerminal_clears (s : TermState) (idx : Nat)
    (h : idx < VGA_HEIGHT * VGA_WIDTH) :
    (initTerminal s).buf idx =
      Nat.lor ' '.toNat (vga_entry_color VGA_COLOR_WHITE VGA_COLOR_BLACK <<< 8) ∧
    vga_entry_color VGA_COLOR_WHITE VGA_COLOR_BLACK = 0x0F ∧
    (initTerminal s).buf idx = 0x0F20 := by
  rw [initTerminal_eq]
  dsimp only
  rw [if_pos h]
  exact ⟨by decide, by decide, by decide⟩

theorem initTerminal_clears_witness :
    (0 : Nat) < VGA_HEIGHT * VGA_WIDTH ∧
    ((initTerminal ⟨fun _ => 0, 0, 0⟩).buf 0 =
        Nat.lor ' '.toNat (vga_entry_color VGA_COLOR_WHITE VGA_COLOR_BLACK <<< 8) ∧
      vga_entry_color VGA_COLOR_WHITE VGA_COLOR_BLACK = 0x0F ∧
      (initTerminal ⟨fun _ => 0, 0, 0⟩).buf 0 = 0x0F20) :=
  ⟨by decide, initTerminal_clears ⟨fun _ => 0, 0, 0⟩ 0 (by decide)⟩

/-- C6: the attribute packing satisfies
`pack fg bg = fg ||| (bg <<< 4)` on the whole 4-bit palette range, and in
particular `pack Red Black = 0x04`, `pack White Black = 0x0F`,
`pack Yellow Black = 0x0E`. -/
theorem vga_entry_color_pack (fg bg : Nat) (hfg : fg < 16) (hbg : bg < 16) :
    vga_entry_color fg bg = Nat.lor fg (bg <<< 4) ∧
    vga_entry_color VGA_COLOR_RED VGA_COLOR_BLACK = 0x04 ∧
    vga_entry_color VGA_COLOR_WHITE VGA_COLOR_BLACK = 0x0F ∧
    vga_entry_color VGA_COLOR_YELLOW VGA_COLOR_BLACK = 0x0E := by
  have hgen : ∀ fg, fg < 16 → ∀ bg, bg < 16 →
      vga_entry_color fg bg = Nat.lor fg (bg <<< 4) := by decide
  exact ⟨hgen fg hfg bg hbg, by decide, by decide, by decide⟩

theorem vga_entry_color_pack_witness :
    ((4 : Nat) < 16 ∧ (0 : Nat) < 16) ∧
    (vga_entry_color 4 0 = Nat.lor 4 (0 <<< 4) ∧
      vga_entry_color VGA_COLOR_RED VGA_COLOR_BLACK = 0x04 ∧
      vga_entry_color VGA_COLOR_WHITE VGA_COLOR_BLACK = 0x0F ∧
      vga_entry_color VGA_COLOR_YELLOW VGA_COLOR_BLACK = 0x0E) :=
  ⟨⟨by decide, by decide⟩, vga_entry_color_pack 4 0 (by decide) (by decide)⟩

/-- C7: the write loop never wraps or clamps the cursor: a string of `n`
non-newline characters moves the column from `c` to `c + n` (leaving the
row alone) with no bound at the display width 80, and `n ≥ 1` newlines move
the row up by `n` (and the column to 0) with no bound at the height 25. -/
theorem cursor_unbounded (s : TermState) (color : Nat) (str : List Char) (n : Nat)
    (hstr : ∀ c ∈ str, c ≠ Char.ofNat 10 ∧ c ≠ Char.ofNat 0) (hn : 0 < n) :
    ((terminalPut str color s).col = s.col + str.length ∧
      (terminalPut str color s).row = s.row) ∧
    ((terminalPut (List.replicate n (Char.ofNat 10)) color s).row = s.row + n ∧
      (terminalPut (List.replicate n (Char.ofNat 10)) color s).col = 0) := by
  refine ⟨terminalPut_no_newline color str s hstr, ?_, ?_⟩
  · exact (terminalPut_newlines color n s).1
  · rw [(terminalPut_newlines color n s).2, if_neg (by omega)]

theorem cursor_unbounded_witness :
    ((∀ c ∈ List.replicate 100 'A', c ≠ Char.ofNat 10 ∧ c ≠ Char.ofNat 0) ∧
      (0 : Nat) < 30) ∧
    (((terminalPut (List.replicate 100 'A') 7 ⟨fun _ => 0, 0, 5⟩).col =
          5 + (List.replicate 100 'A').length ∧
        (terminalPut (List.replicate 100 'A') 7 ⟨fun _ => 0, 0, 5⟩).row = 0) ∧
      ((terminalPut (List.replicate 30 (Char.ofNat 10)) 7 ⟨fun _ => 0, 0, 5⟩).row =
          0 + 30 ∧
        (terminalPut (List.replicate 30 (Char.ofNat 10)) 7 ⟨fun _ => 0, 0, 5⟩).col = 0)) :=
  ⟨⟨by decide, by decide⟩,
    cursor_unbounded ⟨fun _ => 0, 0, 5⟩ 7 (List.replicate 100 'A') 30 (by decide) (by decide)⟩

/-- C8: `write`, `kerr` and `kwarn` perform the same iteration: identical
final cursors, and each buffer index is either untouched by all three or
written by all three with the same character, the cells differing only in
the attribute byte (White/Black, Red/Black, Yellow/Black respectively). -/
theorem severity_entry_points_agree (str : List Char) (s : TermState) :
    (write str s).row = (kerr str s).row ∧ (kerr str s).row = (kwarn str s).row ∧
    (write str s).col = (kerr str s).col ∧ (kerr str s).col = (kwarn str s).col ∧
    ∀ idx : Nat,
      ((write str s).buf idx = s.buf idx ∧ (kerr str s).buf idx = s.buf idx ∧
        (kwarn str s).buf idx = s.buf idx) ∨
      (∃ ch : Char,
        (write str s).buf idx =
          vga_entry ch.toNat (vga_entry_color VGA_COLOR_WHITE VGA_COLOR_BLACK) ∧
        (kerr str s).buf idx =
          vga_entry ch.toNat (vga_entry_color VGA_COLOR_RED VGA_COLOR_BLACK) ∧
        (kwarn str s).buf idx =
          vga_entry ch.toNat (vga_entry_color VGA_COLOR_YELLOW VGA_COLOR_BLACK)) := by
  rw [write, kerr, kwarn, terminalPut_eq, terminalPut_eq, terminalPut_eq]
  refine ⟨rfl, rfl, rfl, rfl, ?_⟩
  intro idx
  rcases applyWrites_cases (trace (str.take (strlen str)) s.row s.col) idx with h | ⟨ch, h⟩
  · left
    exact ⟨h _ _, h _ _, h _ _⟩
  · right
    exact ⟨ch, h _ _, h _ _, h _ _⟩

/-- C9: writing the empty string through `terminalPut` or any of the three
entry points leaves the whole terminal state (cursor and every cell)
unchanged. -/
theorem empty_write_noop (color : Nat) (s : TermState) :
    terminalPut [] color s = s ∧ write [] s = s ∧ kerr [] s = s ∧ kwarn [] s = s :=
  ⟨rfl, rfl, rfl, rfl⟩

/-- C10: `initTerminal` does not touch the cursor: `terminal_row` and
`terminal_col` are unchanged for every starting state. -/
theorem initTerminal_preserves_cursor (s : TermState) :
    (initTerminal s).row = s.row ∧ (initTerminal s).col = s.col := by
  rw [initTerminal_eq]
  exact ⟨rfl, rfl⟩

end SafaOS
